import Mathlib

/-!
Shallow embedding of the Go board rules engine of go-game-rust
(src/main.rs together with src/consts.rs).

Modelling conventions:
* the grid `Vec<Vec<Stone>>` of an `n × n` board is a total function
  `Fin n → Fin n → Stone`; the `board_size` field becomes the type index `n`;
* `usize` coordinates validated by the source's bounds checks become `Fin n`;
* the `u32` capture counters are modelled as `Nat` (no claim below concerns
  wrap-around at 2 ^ 32, and the counters only ever grow by bounded
  increments);
* the stack-based flood fill of `get_group` is given a fuel argument large
  enough (proved below) that the fuel never runs out.
-/

/-- Cell occupancy, `enum Stone` of src/main.rs. -/
inductive Stone where
  | Black : Stone
  | White : Stone
  | Empty : Stone
deriving DecidableEq, Repr

/-- Turn ownership, `enum Player` of src/main.rs. -/
inductive Player where
  | Black : Player
  | White : Player
deriving DecidableEq, Repr

/-- `Player::other` (src/main.rs). -/
def Player.other : Player → Player
  | Player.Black => Player.White
  | Player.White => Player.Black

/-- `Player::to_stone` (src/main.rs). -/
def Player.to_stone : Player → Stone
  | Player.Black => Stone.Black
  | Player.White => Stone.White

/-- `consts::DEFAULT_BOARD_SIZE` (src/consts.rs). -/
def DEFAULT_BOARD_SIZE : Nat := 19

/-- `struct GoBoard` (src/main.rs).  The dimension `board_size` is the type
index `n`; the grid is a total function on in-bounds coordinates. -/
structure GoBoard (n : Nat) where
  board : Fin n → Fin n → Stone
  current_player : Player
  captured_black : Nat
  captured_white : Nat
  game_over : Bool
  last_move : Option (Fin n × Fin n)
deriving DecidableEq

/-- `GoBoard::with_size` (src/main.rs): an all-Empty board, Black to move,
zero captures, game not over, no last move. -/
def GoBoard.with_size (n : Nat) : GoBoard n where
  board := fun _ _ => Stone.Empty
  current_player := Player.Black
  captured_black := 0
  captured_white := 0
  game_over := false
  last_move := none

/-- `impl Default for GoBoard` (src/main.rs): the with-default-size state. -/
def GoBoard.defaultBoard : GoBoard DEFAULT_BOARD_SIZE where
  board := fun _ _ => Stone.Empty
  current_player := Player.Black
  captured_black := 0
  captured_white := 0
  game_over := false
  last_move := none

/-- `GoBoard::reset` (src/main.rs): `*self = Self::default()`.  Because the
board size is a type index, re-adopting the default size shows up in the
result type: whatever the size of the input board, the output is a board of
the default size. -/
def GoBoard.reset {n : Nat} (_b : GoBoard n) : GoBoard DEFAULT_BOARD_SIZE :=
  GoBoard.defaultBoard

/-- `GoBoard::pass_turn` (src/main.rs): flip the current player, touch
nothing else. -/
def GoBoard.pass_turn {n : Nat} (b : GoBoard n) : GoBoard n :=
  { b with current_player := b.current_player.other }

/-- `GoBoard::get_neighbors` (src/main.rs): the in-bounds orthogonal
neighbours, in the source's direction order `(-1,0),(1,0),(0,-1),(0,1)`.
The source's signed bounds checks on `row±1`, `col±1` reduce to the four
Nat-side conditions used here. -/
def get_neighbors {n : Nat} (row col : Fin n) : List (Fin n × Fin n) :=
  (if 1 ≤ row.val then
      [(⟨row.val - 1, Nat.lt_of_le_of_lt (Nat.sub_le row.val 1) row.isLt⟩, col)]
    else []) ++
  (if h : row.val + 1 < n then [(⟨row.val + 1, h⟩, col)] else []) ++
  (if 1 ≤ col.val then
      [(row, ⟨col.val - 1, Nat.lt_of_le_of_lt (Nat.sub_le col.val 1) col.isLt⟩)]
    else []) ++
  (if h : col.val + 1 < n then [(row, ⟨col.val + 1, h⟩)] else [])

/-- Spec-side 4-adjacency: the two cells agree on one axis and differ by
exactly one on the other (diagonals are never adjacent). -/
def adj4 {n : Nat} (a b : Fin n × Fin n) : Prop :=
  (a.1.val = b.1.val ∧ (a.2.val + 1 = b.2.val ∨ b.2.val + 1 = a.2.val)) ∨
  (a.2.val = b.2.val ∧ (a.1.val + 1 = b.1.val ∨ b.1.val + 1 = a.1.val))

instance {n : Nat} (a b : Fin n × Fin n) : Decidable (adj4 a b) := by
  unfold adj4; infer_instance

/-- Fuel for the flood-fill loop: one unit per iteration; the bound proofs
below show this amount is never exhausted. -/
def floodFuel (n : Nat) : Nat := 5 * (n * n) + 2

/-- The `while let Some((r, c)) = stack.pop()` loop of `GoBoard::get_group`
(src/main.rs): pop a cell; skip it when already collected or off-colour;
otherwise collect it and push those neighbours that are on-colour and not
yet collected. -/
def get_group_loop {n : Nat} (b : GoBoard n) (stone : Stone) :
    Nat → List (Fin n × Fin n) → Finset (Fin n × Fin n) → Finset (Fin n × Fin n)
  | 0, _, group => group
  | _ + 1, [], group => group
  | fuel + 1, p :: rest, group =>
    if p ∈ group ∨ b.board p.1 p.2 ≠ stone then
      get_group_loop b stone fuel rest group
    else
      get_group_loop b stone fuel
        (((get_neighbors p.1 p.2).filter
            (fun q => decide (q ∉ insert p group ∧ b.board q.1 q.2 = stone))) ++ rest)
        (insert p group)

/-- `GoBoard::get_group` (src/main.rs): flood fill from `(row, col)` over
cells holding `stone`. -/
def get_group {n : Nat} (b : GoBoard n) (row col : Fin n) (stone : Stone) :
    Finset (Fin n × Fin n) :=
  get_group_loop b stone (floodFuel n) [(row, col)] ∅

/-- Spec-side connectivity: a chain of 4-adjacent steps, every stepped-on
cell holding `stone`. -/
def Reaches {n : Nat} (b : GoBoard n) (stone : Stone) :
    (Fin n × Fin n) → (Fin n × Fin n) → Prop :=
  Relation.ReflTransGen (fun a c => adj4 a c ∧ b.board c.1 c.2 = stone)

/-- Worklist invariant: every on-colour neighbour of a collected cell is
either collected or still queued. -/
def stackInv {n : Nat} (b : GoBoard n) (stone : Stone)
    (stack : List (Fin n × Fin n)) (group : Finset (Fin n × Fin n)) : Prop :=
  ∀ p ∈ group, ∀ q : Fin n × Fin n, adj4 p q → b.board q.1 q.2 = stone →
    q ∈ group ∨ q ∈ stack

/-- `GoBoard::has_liberties` (src/main.rs): Empty cells count as having
liberties; otherwise some member of the cell's group must have an Empty
neighbour. -/
def has_liberties {n : Nat} (b : GoBoard n) (row col : Fin n) : Bool :=
  if b.board row col = Stone.Empty then true
  else
    decide (∃ p ∈ get_group b row col (b.board row col),
      ∃ q ∈ get_neighbors p.1 p.2, b.board q.1 q.2 = Stone.Empty)

/-- All cells of the board in the row-major order of the
`for row in 0..board_size { for col in 0..board_size { .. } }` scan. -/
def allCells (n : Nat) : List (Fin n × Fin n) :=
  (List.finRange n).flatMap (fun r => (List.finRange n).map (fun c => (r, c)))

/-- A cell whose group the capture sweep removes: opponent-coloured and
without liberties on the board being scanned. -/
def deadCell {n : Nat} (b : GoBoard n) (opponent : Stone) (p : Fin n × Fin n) : Prop :=
  b.board p.1 p.2 = opponent ∧ has_liberties b p.1 p.2 = false

instance {n : Nat} (b : GoBoard n) (opponent : Stone) (p : Fin n × Fin n) :
    Decidable (deadCell b opponent p) := by
  unfold deadCell; infer_instance

/-- One step of the `capture_stones` scan: on a dead opponent cell, queue
its whole group for removal and add the group size to the count.  The
source's `to_remove` is a `Vec` that may hold duplicates; only membership
matters for the later removal pass, so the queue is modelled as a
`Finset`, while the count is accumulated per scanned cell exactly as in
the source. -/
def captureStep {n : Nat} (b : GoBoard n) (opponent : Stone)
    (acc : Finset (Fin n × Fin n) × Nat) (p : Fin n × Fin n) :
    Finset (Fin n × Fin n) × Nat :=
  if deadCell b opponent p then
    (acc.1 ∪ get_group b p.1 p.2 opponent,
     acc.2 + (get_group b p.1 p.2 opponent).card)
  else acc

/-- `GoBoard::capture_stones` (src/main.rs): scan every cell in row-major
order collecting dead opponent groups, then set every queued cell to
Empty.  Returns the updated board and the accumulated count. -/
def capture_stones {n : Nat} (b : GoBoard n) (opponent : Stone) :
    GoBoard n × Nat :=
  let scan := (allCells n).foldl (captureStep b opponent) (∅, 0)
  ({ b with
      board := fun r c => if (r, c) ∈ scan.1 then Stone.Empty else b.board r c },
   scan.2)

/-- `GoBoard::would_group_be_captured` (src/main.rs): the scan returns
false as soon as a member of the group has an Empty neighbour other than
the prospective stone's cell, true otherwise. -/
def would_group_be_captured {n : Nat} (b : GoBoard n) (group_row group_col : Fin n)
    (group_stone : Stone) (new_stone_row new_stone_col : Fin n) : Bool :=
  ! decide (∃ p ∈ get_group b group_row group_col group_stone,
      ∃ q ∈ get_neighbors p.1 p.2,
        b.board q.1 q.2 = Stone.Empty ∧
          ¬(q.1 = new_stone_row ∧ q.2 = new_stone_col))

/-- `GoBoard::would_capture_opponent` (src/main.rs): some orthogonal
neighbour holds an opponent stone whose group would be left with no
liberties once the new stone occupies `(row, col)`. -/
def would_capture_opponent {n : Nat} (b : GoBoard n) (row col : Fin n)
    (player : Player) : Bool :=
  (get_neighbors row col).any (fun q =>
    decide (b.board q.1 q.2 = player.other.to_stone) &&
      would_group_be_captured b q.1 q.2 player.other.to_stone row col)

/-- `GoBoard::would_friendly_group_have_liberties` (src/main.rs): the
adjacent friendly group keeps an Empty neighbour other than the new
stone's cell, or the new cell itself has an Empty neighbour. -/
def would_friendly_group_have_liberties {n : Nat} (b : GoBoard n)
    (group_row group_col : Fin n) (group_stone : Stone)
    (new_row new_col : Fin n) : Bool :=
  decide (∃ p ∈ get_group b group_row group_col group_stone,
      ∃ q ∈ get_neighbors p.1 p.2,
        b.board q.1 q.2 = Stone.Empty ∧ ¬(q.1 = new_row ∧ q.2 = new_col)) ||
  (get_neighbors new_row new_col).any
    (fun q => decide (b.board q.1 q.2 = Stone.Empty))

/-- `GoBoard::would_be_suicide` (src/main.rs): no direct Empty neighbour
and no adjacent friendly group that would keep a liberty. -/
def would_be_suicide {n : Nat} (b : GoBoard n) (row col : Fin n)
    (player : Player) : Bool :=
  if (get_neighbors row col).any (fun q => decide (b.board q.1 q.2 = Stone.Empty)) then
    false
  else if (get_neighbors row col).any (fun q =>
      decide (b.board q.1 q.2 = player.to_stone) &&
        would_friendly_group_have_liberties b q.1 q.2 player.to_stone row col) then
    false
  else true

/-- `GoBoard::is_valid_move` (src/main.rs). -/
def is_valid_move {n : Nat} (b : GoBoard n) (row col : Fin n) : Bool :=
  if b.game_over = true ∨ b.board row col ≠ Stone.Empty then false
  else if would_capture_opponent b row col b.current_player = false ∧
      would_be_suicide b row col b.current_player = true then
    false
  else true

/-- The placement step of `GoBoard::make_move` (src/main.rs): write the
current player's stone at `(row, col)` and record the last move. -/
def placeStone {n : Nat} (b : GoBoard n) (row col : Fin n) : GoBoard n :=
  { b with
    board := fun r c =>
      if r = row ∧ c = col then b.current_player.to_stone else b.board r c,
    last_move := some (row, col) }

/-- `GoBoard::make_move` (src/main.rs). -/
def make_move {n : Nat} (b : GoBoard n) (row col : Fin n) : Bool × GoBoard n :=
  if is_valid_move b row col = false then (false, b)
  else
    let b1 := placeStone b row col
    let cap := capture_stones b1 b.current_player.other.to_stone
    let b3 :=
      match b.current_player with
      | Player.Black => { cap.1 with captured_white := cap.1.captured_white + cap.2 }
      | Player.White => { cap.1 with captured_black := cap.1.captured_black + cap.2 }
    (true, { b3 with current_player := b3.current_player.other })

/-- A 1×1 board marked game-over, for concrete evaluations. -/
def overBoard : GoBoard 1 :=
  { GoBoard.with_size 1 with game_over := true }

/-- A 2×2 board with a single White stone at (0,1) whose one remaining
liberty is (0,0), Black to move. -/
def capBoard : GoBoard 2 :=
  { board := fun r c =>
      if r.val = 0 ∧ c.val = 1 then Stone.White
      else if r.val = 1 ∧ c.val = 1 then Stone.Black
      else Stone.Empty,
    current_player := Player.Black,
    captured_black := 0,
    captured_white := 0,
    game_over := false,
    last_move := none }

/-- A 3×3 board with an L-shaped Black group at (0,0),(1,0),(1,1) and a
separate White stone at (2,2). -/
def ellBoard : GoBoard 3 :=
  { board := fun r c =>
      if (r.val = 0 ∧ c.val = 0) ∨ (r.val = 1 ∧ c.val = 0) ∨ (r.val = 1 ∧ c.val = 1)
        then Stone.Black
      else if r.val = 2 ∧ c.val = 2 then Stone.White
      else Stone.Empty,
    current_player := Player.Black,
    captured_black := 0,
    captured_white := 0,
    game_over := false,
    last_move := none }

/-- A 3×3 board where the White group {(0,0),(0,1)} has no liberties:
Black stones at (0,2),(1,0),(1,1). -/
def dblBoard : GoBoard 3 :=
  { board := fun r c =>
      if r.val = 0 ∧ c.val ≤ 1 then Stone.White
      else if (r.val = 0 ∧ c.val = 2) ∨ (r.val = 1 ∧ c.val ≤ 1) then Stone.Black
      else Stone.Empty,
    current_player := Player.Black,
    captured_black := 0,
    captured_white := 0,
    game_over := false,
    last_move := none }

/-- A 2×2 board where (0,0) is surrounded by two separate White stones,
each keeping a liberty at (1,1); playing Black at (0,0) captures nothing
and self-fills the group's last liberty. -/
def suiBoard : GoBoard 2 :=
  { board := fun r c =>
      if (r.val = 0 ∧ c.val = 1) ∨ (r.val = 1 ∧ c.val = 0) then Stone.White
      else Stone.Empty,
    current_player := Player.Black,
    captured_black := 0,
    captured_white := 0,
    game_over := false,
    last_move := none }

/-- A 2×2 board where Black's move at (0,0) has no Empty neighbour and no
friendly neighbour, yet is legal because each adjacent White group's only
liberty is (0,0). -/
def capBoard2 : GoBoard 2 :=
  { board := fun r c =>
      if (r.val = 0 ∧ c.val = 1) ∨ (r.val = 1 ∧ c.val = 0) then Stone.White
      else if r.val = 1 ∧ c.val = 1 then Stone.Black
      else Stone.Empty,
    current_player := Player.Black,
    captured_black := 0,
    captured_white := 0,
    game_over := false,
    last_move := none }

/-- Spec-side liberty property of the maximal group of an occupied cell:
some member of the component of `(r, c)` has an Empty orthogonal
neighbour. -/
def groupHasLiberty {n : Nat} (b : GoBoard n) (r c : Fin n) : Prop :=
  ∃ p, Reaches b (b.board r c) (r, c) p ∧
    ∃ q ∈ get_neighbors p.1 p.2, b.board q.1 q.2 = Stone.Empty

/-- Every maximal group of like-coloured stones on the board has at least
one liberty. -/
def allGroupsHaveLiberties {n : Nat} (b : GoBoard n) : Prop :=
  ∀ r c : Fin n, b.board r c ≠ Stone.Empty → groupHasLiberty b r c

/-- States reachable from the initial all-Empty board by accepted
`make_move` calls and `pass_turn` calls. -/
inductive ReachableState {n : Nat} : GoBoard n → Prop where
  | init : ReachableState (GoBoard.with_size n)
  | move (b : GoBoard n) (row col : Fin n) (hb : ReachableState b)
      (hacc : (make_move b row col).1 = true) :
      ReachableState (make_move b row col).2
  | pass (b : GoBoard n) (hb : ReachableState b) :
      ReachableState b.pass_turn

theorem mem_get_neighbors {n : Nat} (row col : Fin n) (p : Fin n × Fin n) :
    p ∈ get_neighbors row col ↔ adj4 (row, col) p := by
  obtain ⟨a, b⟩ := p
  have ha := a.isLt
  have hb := b.isLt
  have hr := row.isLt
  have hc := col.isLt
  simp only [get_neighbors, List.mem_append, adj4]
  constructor
  · intro h
    rcases h with ((h | h) | h) | h
    · by_cases hcnd : 1 ≤ row.val
      · simp only [if_pos hcnd, List.mem_singleton, Prod.mk.injEq, Fin.ext_iff] at h
        omega
      · simp [if_neg hcnd] at h
    · by_cases hcnd : row.val + 1 < n
      · simp only [dif_pos hcnd, List.mem_singleton, Prod.mk.injEq, Fin.ext_iff] at h
        omega
      · simp [dif_neg hcnd] at h
    · by_cases hcnd : 1 ≤ col.val
      · simp only [if_pos hcnd, List.mem_singleton, Prod.mk.injEq, Fin.ext_iff] at h
        omega
      · simp [if_neg hcnd] at h
    · by_cases hcnd : col.val + 1 < n
      · simp only [dif_pos hcnd, List.mem_singleton, Prod.mk.injEq, Fin.ext_iff] at h
        omega
      · simp [dif_neg hcnd] at h
  · intro h
    rcases h with ⟨h1, h2 | h2⟩ | ⟨h1, h2 | h2⟩
    · -- right neighbour: b = col + 1
      refine Or.inr ?_
      have hcnd : col.val + 1 < n := by omega
      simp only [dif_pos hcnd, List.mem_singleton, Prod.mk.injEq, Fin.ext_iff]
      omega
    · -- left neighbour: b + 1 = col
      refine Or.inl (Or.inr ?_)
      have hcnd : 1 ≤ col.val := by omega
      simp only [if_pos hcnd, List.mem_singleton, Prod.mk.injEq, Fin.ext_iff]
      omega
    · -- down neighbour: a = row + 1
      refine Or.inl (Or.inl (Or.inr ?_))
      have hcnd : row.val + 1 < n := by omega
      simp only [dif_pos hcnd, List.mem_singleton, Prod.mk.injEq, Fin.ext_iff]
      omega
    · -- up neighbour: a + 1 = row
      refine Or.inl (Or.inl (Or.inl ?_))
      have hcnd : 1 ≤ row.val := by omega
      simp only [if_pos hcnd, List.mem_singleton, Prod.mk.injEq, Fin.ext_iff]
      omega

theorem adj4_symm {n : Nat} {a b : Fin n × Fin n} (h : adj4 a b) : adj4 b a := by
  unfold adj4 at h ⊢
  omega

theorem adj4_irrefl {n : Nat} (a : Fin n × Fin n) : ¬ adj4 a a := by
  unfold adj4
  omega

theorem get_neighbors_length_le {n : Nat} (row col : Fin n) :
    (get_neighbors row col).length ≤ 4 := by
  unfold get_neighbors
  split_ifs <;> simp

theorem reaches_refl {n : Nat} (b : GoBoard n) (stone : Stone) (p : Fin n × Fin n) :
    Reaches b stone p p :=
  Relation.ReflTransGen.refl

theorem reaches_board {n : Nat} {b : GoBoard n} {stone : Stone}
    {a p : Fin n × Fin n} (hstart : b.board a.1 a.2 = stone)
    (h : Reaches b stone a p) : b.board p.1 p.2 = stone := by
  induction h with
  | refl => exact hstart
  | tail _ hstep _ => exact hstep.2

theorem reaches_trans {n : Nat} {b : GoBoard n} {stone : Stone}
    {a p q : Fin n × Fin n} (h1 : Reaches b stone a p) (h2 : Reaches b stone p q) :
    Reaches b stone a q :=
  Relation.ReflTransGen.trans h1 h2

theorem reaches_symm {n : Nat} {b : GoBoard n} {stone : Stone}
    {a p : Fin n × Fin n} (hstart : b.board a.1 a.2 = stone)
    (h : Reaches b stone a p) : Reaches b stone p a := by
  induction h with
  | refl => exact Relation.ReflTransGen.refl
  | tail hab hstep ih =>
    exact Relation.ReflTransGen.head
      ⟨adj4_symm hstep.1, reaches_board hstart hab⟩ ih

theorem get_group_loop_nilStack {n : Nat} (b : GoBoard n) (stone : Stone)
    (fuel : Nat) (group : Finset (Fin n × Fin n)) :
    get_group_loop b stone fuel [] group = group := by
  cases fuel <;> rfl

theorem get_group_loop_mono {n : Nat} (b : GoBoard n) (stone : Stone) :
    ∀ (fuel : Nat) (stack : List (Fin n × Fin n)) (group : Finset (Fin n × Fin n)),
      group ⊆ get_group_loop b stone fuel stack group := by
  intro fuel
  induction fuel with
  | zero => intro stack group; simp [get_group_loop]
  | succ fuel ih =>
    intro stack group
    cases stack with
    | nil => simp [get_group_loop_nilStack]
    | cons p rest =>
      simp only [get_group_loop]
      split
      · exact ih rest group
      · exact Finset.Subset.trans (Finset.subset_insert _ _) (ih _ _)

theorem get_group_loop_sound {n : Nat} (b : GoBoard n) (stone : Stone)
    (start : Fin n × Fin n) :
    ∀ (fuel : Nat) (stack : List (Fin n × Fin n)) (group : Finset (Fin n × Fin n)),
      (∀ q ∈ stack, Reaches b stone start q) →
      (∀ q ∈ group, b.board q.1 q.2 = stone ∧ Reaches b stone start q) →
      ∀ q ∈ get_group_loop b stone fuel stack group,
        b.board q.1 q.2 = stone ∧ Reaches b stone start q := by
  intro fuel
  induction fuel with
  | zero => intro stack group _ hgroup; simpa [get_group_loop] using hgroup
  | succ fuel ih =>
    intro stack group hstack hgroup
    cases stack with
    | nil => simpa [get_group_loop_nilStack] using hgroup
    | cons p rest =>
      simp only [get_group_loop]
      split
      · exact ih rest group (fun q hq => hstack q (List.mem_cons_of_mem _ hq)) hgroup
      · rename_i hcond
        push_neg at hcond
        refine ih _ _ ?_ ?_
        · intro q hq
          rcases List.mem_append.mp hq with hq | hq
          · have hq2 := List.mem_filter.mp hq
            have hmem : q ∈ get_neighbors p.1 p.2 := hq2.1
            have hq3 := of_decide_eq_true hq2.2
            have hadj : adj4 p q := by
              have := (mem_get_neighbors p.1 p.2 q).mp hmem
              simpa using this
            exact Relation.ReflTransGen.tail (hstack p (List.mem_cons_self _ _))
              ⟨hadj, hq3.2⟩
          · exact hstack q (List.mem_cons_of_mem _ hq)
        · intro q hq
          rcases Finset.mem_insert.mp hq with hq | hq
          · subst hq
            exact ⟨hcond.2, hstack q (List.mem_cons_self _ _)⟩
          · exact hgroup q hq

theorem get_group_loop_closed {n : Nat} (b : GoBoard n) (stone : Stone) :
    ∀ (fuel : Nat) (stack : List (Fin n × Fin n)) (group : Finset (Fin n × Fin n)),
      stackInv b stone stack group →
      stack.length + 5 * ((Finset.univ \ group).card) + 1 ≤ fuel →
      ∀ p ∈ get_group_loop b stone fuel stack group,
        ∀ q : Fin n × Fin n, adj4 p q → b.board q.1 q.2 = stone →
          q ∈ get_group_loop b stone fuel stack group := by
  intro fuel
  induction fuel with
  | zero => intro stack group _ hfuel; omega
  | succ fuel ih =>
    intro stack group hinv hfuel
    cases stack with
    | nil =>
      simp only [get_group_loop_nilStack]
      intro p hp q hadj hq
      rcases hinv p hp q hadj hq with h | h
      · exact h
      · simp at h
    | cons p rest =>
      simp only [get_group_loop]
      split
      · rename_i hcond
        refine ih rest group ?_ ?_
        · intro a ha q hadj hq
          rcases hinv a ha q hadj hq with h | h
          · exact Or.inl h
          · rcases List.mem_cons.mp h with h | h
            · subst h
              rcases hcond with hc | hc
              · exact Or.inl hc
              · exact absurd hq hc
            · exact Or.inr h
        · simp only [List.length_cons] at hfuel
          omega
      · rename_i hcond
        push_neg at hcond
        have hpmem : p ∈ Finset.univ \ group := by
          simp [Finset.mem_sdiff, hcond.1]
        have hsd : Finset.univ \ insert p group = (Finset.univ \ group).erase p := by
          ext x
          simp only [Finset.mem_sdiff, Finset.mem_insert, Finset.mem_erase,
            Finset.mem_univ, true_and]
          tauto
        have hcard : ((Finset.univ \ insert p group).card) + 1
            = (Finset.univ \ group).card := by
          rw [hsd, Finset.card_erase_of_mem hpmem]
          have hpos : 0 < (Finset.univ \ group).card :=
            Finset.card_pos.mpr ⟨p, hpmem⟩
          omega
        have hlenf : ((get_neighbors p.1 p.2).filter
            (fun q => decide (q ∉ insert p group ∧ b.board q.1 q.2 = stone))).length ≤ 4 :=
          Nat.le_trans (List.length_filter_le _ _) (get_neighbors_length_le _ _)
        refine ih _ _ ?_ ?_
        · intro a ha q hadj hq
          rcases Finset.mem_insert.mp ha with ha | ha
          · subst ha
            by_cases hqg : q ∈ insert a group
            · exact Or.inl hqg
            · refine Or.inr (List.mem_append.mpr (Or.inl ?_))
              refine List.mem_filter.mpr ⟨?_, ?_⟩
              · refine (mem_get_neighbors a.1 a.2 q).mpr ?_
                simpa using hadj
              · exact decide_eq_true ⟨hqg, hq⟩
          · rcases hinv a ha q hadj hq with h | h
            · exact Or.inl (Finset.mem_insert_of_mem h)
            · rcases List.mem_cons.mp h with h | h
              · subst h
                exact Or.inl (Finset.mem_insert_self _ _)
              · exact Or.inr (List.mem_append.mpr (Or.inr h))
        · simp only [List.length_append, List.length_cons] at hfuel ⊢
          omega

theorem get_group_of_ne {n : Nat} (b : GoBoard n) (row col : Fin n) (stone : Stone)
    (h : b.board row col ≠ stone) : get_group b row col stone = ∅ := by
  unfold get_group
  have hf : floodFuel n = 5 * (n * n) + 1 + 1 := rfl
  rw [hf]
  simp only [get_group_loop]
  split
  · rfl
  · rename_i hcond
    push_neg at hcond
    exact absurd hcond.2 (by simpa using h)

theorem start_mem_get_group {n : Nat} (b : GoBoard n) (row col : Fin n)
    (stone : Stone) (h : b.board row col = stone) :
    (row, col) ∈ get_group b row col stone := by
  unfold get_group
  have hf : floodFuel n = 5 * (n * n) + 1 + 1 := rfl
  rw [hf]
  simp only [get_group_loop]
  split
  · rename_i hcond
    rcases hcond with hc | hc
    · simp at hc
    · exact absurd h hc
  · exact get_group_loop_mono b stone _ _ _ (Finset.mem_insert_self _ _)

theorem univ_sdiff_empty_card {n : Nat} :
    ((Finset.univ : Finset (Fin n × Fin n)) \ ∅).card = n * n := by
  simp [Finset.sdiff_empty, Finset.card_univ]

theorem mem_get_group {n : Nat} (b : GoBoard n) (row col : Fin n) (stone : Stone)
    (p : Fin n × Fin n) :
    p ∈ get_group b row col stone ↔
      b.board row col = stone ∧ Reaches b stone (row, col) p := by
  constructor
  · intro hp
    by_cases hs : b.board row col = stone
    · refine ⟨hs, ?_⟩
      refine (get_group_loop_sound b stone (row, col) (floodFuel n) [(row, col)] ∅
        ?_ ?_ p hp).2
      · intro q hq
        simp only [List.mem_singleton] at hq
        subst hq
        exact reaches_refl _ _ _
      · intro q hq
        simp at hq
    · rw [get_group_of_ne b row col stone hs] at hp
      simp at hp
  · rintro ⟨hs, hr⟩
    have hclosed := get_group_loop_closed b stone (floodFuel n) [(row, col)] ∅
      (by intro a ha; simp at ha)
      (by
        rw [univ_sdiff_empty_card]
        unfold floodFuel
        simp
        omega)
    induction hr with
    | refl => exact start_mem_get_group b row col stone hs
    | tail hab hstep ih => exact hclosed _ ih _ hstep.1 hstep.2

theorem mem_get_group_board {n : Nat} {b : GoBoard n} {row col : Fin n}
    {stone : Stone} {p : Fin n × Fin n} (hp : p ∈ get_group b row col stone) :
    b.board p.1 p.2 = stone := by
  have h := (mem_get_group b row col stone p).mp hp
  exact reaches_board h.1 h.2

theorem get_group_eq_of_mem {n : Nat} {b : GoBoard n} {row col : Fin n}
    {stone : Stone} {p : Fin n × Fin n} (hp : p ∈ get_group b row col stone) :
    get_group b p.1 p.2 stone = get_group b row col stone := by
  have h := (mem_get_group b row col stone p).mp hp
  have hpcol : b.board p.1 p.2 = stone := reaches_board h.1 h.2
  ext q
  rw [mem_get_group, mem_get_group]
  constructor
  · rintro ⟨_, hq⟩
    refine ⟨h.1, reaches_trans h.2 ?_⟩
    simpa using hq
  · rintro ⟨_, hq⟩
    refine ⟨hpcol, ?_⟩
    have hback : Reaches b stone (p.1, p.2) (row, col) := by
      have := reaches_symm h.1 h.2
      simpa using this
    exact reaches_trans hback hq

theorem reaches_transfer {n : Nat} {b1 b2 : GoBoard n} {stone : Stone}
    {a p : Fin n × Fin n} (h : Reaches b1 stone a p)
    (hpres : ∀ q, Reaches b1 stone a q → b2.board q.1 q.2 = b1.board q.1 q.2) :
    Reaches b2 stone a p := by
  induction h with
  | refl => exact Relation.ReflTransGen.refl
  | tail hab hstep ih =>
    refine Relation.ReflTransGen.tail ih ⟨hstep.1, ?_⟩
    rw [hpres _ (Relation.ReflTransGen.tail hab hstep)]
    exact hstep.2

theorem reaches_mono_color {n : Nat} {b1 b2 : GoBoard n} {stone : Stone}
    {a p : Fin n × Fin n} (h : Reaches b1 stone a p)
    (hpres : ∀ q : Fin n × Fin n, b1.board q.1 q.2 = stone → b2.board q.1 q.2 = stone) :
    Reaches b2 stone a p := by
  induction h with
  | refl => exact Relation.ReflTransGen.refl
  | tail _ hstep ih =>
    exact Relation.ReflTransGen.tail ih ⟨hstep.1, hpres _ hstep.2⟩

theorem has_liberties_of_ne {n : Nat} (b : GoBoard n) (row col : Fin n)
    (h : b.board row col ≠ Stone.Empty) :
    has_liberties b row col =
      decide (∃ p ∈ get_group b row col (b.board row col),
        ∃ q ∈ get_neighbors p.1 p.2, b.board q.1 q.2 = Stone.Empty) := by
  unfold has_liberties
  rw [if_neg h]

theorem mem_allCells {n : Nat} (p : Fin n × Fin n) : p ∈ allCells n := by
  unfold allCells
  simp [List.mem_flatMap]

theorem capture_scan_mem {n : Nat} (b : GoBoard n) (opponent : Stone) :
    ∀ (cells : List (Fin n × Fin n)) (acc : Finset (Fin n × Fin n) × Nat)
      (q : Fin n × Fin n),
      q ∈ (cells.foldl (captureStep b opponent) acc).1 ↔
        q ∈ acc.1 ∨ ∃ p ∈ cells, deadCell b opponent p ∧
          q ∈ get_group b p.1 p.2 opponent := by
  intro cells
  induction cells with
  | nil => intro acc q; simp
  | cons p cells ih =>
    intro acc q
    rw [List.foldl_cons, ih]
    unfold captureStep
    split
    · rename_i hdead
      simp only [Finset.mem_union, List.mem_cons]
      constructor
      · rintro ((h | h) | h)
        · exact Or.inl h
        · exact Or.inr ⟨p, Or.inl rfl, hdead, h⟩
        · rcases h with ⟨a, ha, hd, hg⟩
          exact Or.inr ⟨a, Or.inr ha, hd, hg⟩
      · rintro (h | ⟨a, (ha | ha), hd, hg⟩)
        · exact Or.inl (Or.inl h)
        · subst ha
          exact Or.inl (Or.inr hg)
        · exact Or.inr ⟨a, ha, hd, hg⟩
    · rename_i hdead
      simp only [List.mem_cons]
      constructor
      · rintro (h | ⟨a, ha, hd, hg⟩)
        · exact Or.inl h
        · exact Or.inr ⟨a, Or.inr ha, hd, hg⟩
      · rintro (h | ⟨a, (ha | ha), hd, hg⟩)
        · exact Or.inl h
        · subst ha
          exact absurd hd hdead
        · exact Or.inr ⟨a, ha, hd, hg⟩

theorem deadCell_opponent_ne_empty {n : Nat} {b : GoBoard n} {opponent : Stone}
    {p : Fin n × Fin n} (h : deadCell b opponent p) : opponent ≠ Stone.Empty := by
  intro he
  subst he
  have hlib : has_liberties b p.1 p.2 = true := by
    unfold has_liberties
    rw [if_pos h.1]
  have hfalse := h.2
  rw [hlib] at hfalse
  exact Bool.noConfusion hfalse

theorem deadCell_of_mem_group {n : Nat} {b : GoBoard n} {opponent : Stone}
    {p q : Fin n × Fin n} (hd : deadCell b opponent p)
    (hq : q ∈ get_group b p.1 p.2 opponent) : deadCell b opponent q := by
  have hne : opponent ≠ Stone.Empty := deadCell_opponent_ne_empty hd
  have hqcol : b.board q.1 q.2 = opponent := mem_get_group_board hq
  refine ⟨hqcol, ?_⟩
  have hgeq : get_group b q.1 q.2 opponent = get_group b p.1 p.2 opponent :=
    get_group_eq_of_mem hq
  rw [has_liberties_of_ne b q.1 q.2 (by rw [hqcol]; exact hne), hqcol, hgeq]
  have hplib := hd.2
  rw [has_liberties_of_ne b p.1 p.2 (by rw [hd.1]; exact hne), hd.1] at hplib
  exact hplib

theorem capture_stones_board {n : Nat} (b : GoBoard n) (opponent : Stone)
    (r c : Fin n) :
    (capture_stones b opponent).1.board r c =
      if deadCell b opponent (r, c) then Stone.Empty else b.board r c := by
  show (if (r, c) ∈ ((allCells n).foldl (captureStep b opponent) (∅, 0)).1
      then Stone.Empty else b.board r c) = _
  have hmem : (r, c) ∈ ((allCells n).foldl (captureStep b opponent) (∅, 0)).1 ↔
      deadCell b opponent (r, c) := by
    rw [capture_scan_mem]
    constructor
    · rintro (h | ⟨p, _, hd, hg⟩)
      · simp at h
      · exact deadCell_of_mem_group hd hg
    · intro hd
      refine Or.inr ⟨(r, c), mem_allCells _, hd, ?_⟩
      exact start_mem_get_group b r c opponent hd.1
  by_cases hd : deadCell b opponent (r, c)
  · rw [if_pos (hmem.mpr hd), if_pos hd]
  · rw [if_neg (fun hc => hd (hmem.mp hc)), if_neg hd]

theorem capture_stones_fields {n : Nat} (b : GoBoard n) (opponent : Stone) :
    (capture_stones b opponent).1.current_player = b.current_player ∧
    (capture_stones b opponent).1.captured_black = b.captured_black ∧
    (capture_stones b opponent).1.captured_white = b.captured_white ∧
    (capture_stones b opponent).1.game_over = b.game_over ∧
    (capture_stones b opponent).1.last_move = b.last_move :=
  ⟨rfl, rfl, rfl, rfl, rfl⟩

theorem Player.other_other (p : Player) : p.other.other = p := by
  cases p <;> rfl

theorem Player.to_stone_ne_empty (p : Player) : p.to_stone ≠ Stone.Empty := by
  cases p <;> simp [Player.to_stone]

theorem Player.to_stone_ne_other (p : Player) : p.to_stone ≠ p.other.to_stone := by
  cases p <;> simp [Player.to_stone, Player.other]

theorem make_move_of_invalid {n : Nat} (b : GoBoard n) (row col : Fin n)
    (h : is_valid_move b row col = false) : make_move b row col = (false, b) := by
  unfold make_move
  rw [if_pos h]

/-- C5: if the game is over or the target cell is occupied, `make_move`
returns false and leaves every component of the state unchanged. -/
theorem make_move_rejected_state_unchanged {n : Nat} (b : GoBoard n)
    (row col : Fin n)
    (h : b.game_over = true ∨ b.board row col ≠ Stone.Empty) :
    make_move b row col = (false, b) := by
  apply make_move_of_invalid
  unfold is_valid_move
  rw [if_pos h]

/-- Witness for C5: on a game-over 1×1 board, the move at (0,0) is rejected
and the state is returned unchanged. -/
theorem make_move_rejected_state_unchanged_witness :
    make_move overBoard 0 0 = (false, overBoard) :=
  make_move_rejected_state_unchanged overBoard 0 0 (Or.inl rfl)

/-- C7: `pass_turn` flips the current player and changes no other
component of the state, also when the game is over. -/
theorem pass_turn_flips_only_player {n : Nat} (b : GoBoard n) :
    (b.pass_turn).current_player = b.current_player.other ∧
    (b.pass_turn).board = b.board ∧
    (b.pass_turn).captured_black = b.captured_black ∧
    (b.pass_turn).captured_white = b.captured_white ∧
    (b.pass_turn).last_move = b.last_move ∧
    (b.pass_turn).game_over = b.game_over :=
  ⟨rfl, rfl, rfl, rfl, rfl, rfl⟩

/-- C10: passing twice restores the whole state; `Player.other` is an
involution and `pass_turn` touches only `current_player`. -/
theorem pass_turn_involution {n : Nat} (b : GoBoard n) :
    (b.pass_turn).pass_turn = b := by
  unfold GoBoard.pass_turn
  rw [Player.other_other]

/-- C8: `reset` yields exactly the default start configuration — default
size 19, all-Empty grid, Black to move, zero captures, no last move, game
not over — discarding the input board's size (visible in the result
type `GoBoard DEFAULT_BOARD_SIZE`). -/
theorem reset_restores_default {n : Nat} (b : GoBoard n) :
    b.reset = GoBoard.defaultBoard ∧
    DEFAULT_BOARD_SIZE = 19 ∧
    (b.reset).board = (fun _ _ => Stone.Empty) ∧
    (b.reset).current_player = Player.Black ∧
    (b.reset).captured_black = 0 ∧
    (b.reset).captured_white = 0 ∧
    (b.reset).last_move = none ∧
    (b.reset).game_over = false :=
  ⟨rfl, rfl, rfl, rfl, rfl, rfl, rfl, rfl⟩

/-- C6: an accepted move credits the value returned by capture resolution
to the counter of the captured colour — Black moves add to
`captured_white`, White moves add to `captured_black` — and leaves the
other counter unchanged. -/
theorem capture_credited_to_captured_color {n : Nat} (b : GoBoard n)
    (row col : Fin n) (hv : is_valid_move b row col = true) :
    (b.current_player = Player.Black →
      (make_move b row col).2.captured_white
          = b.captured_white + (capture_stones (placeStone b row col) Stone.White).2 ∧
      (make_move b row col).2.captured_black = b.captured_black) ∧
    (b.current_player = Player.White →
      (make_move b row col).2.captured_black
          = b.captured_black + (capture_stones (placeStone b row col) Stone.Black).2 ∧
      (make_move b row col).2.captured_white = b.captured_white) := by
  have hvn : ¬ (is_valid_move b row col = false) := by simp [hv]
  constructor
  · intro hcp
    unfold make_move
    rw [if_neg hvn, hcp]
    exact ⟨rfl, rfl⟩
  · intro hcp
    unfold make_move
    rw [if_neg hvn, hcp]
    exact ⟨rfl, rfl⟩

/-- Witness for C6: on `capBoard`, Black's move at (0,0) captures the
single-stone White group, and `captured_white` becomes exactly 0 + 1. -/
theorem capture_credited_to_captured_color_witness :
    ((make_move capBoard 0 0).2.captured_white
        = capBoard.captured_white + (capture_stones (placeStone capBoard 0 0) Stone.White).2 ∧
      (make_move capBoard 0 0).2.captured_black = capBoard.captured_black) ∧
    (capture_stones (placeStone capBoard 0 0) Stone.White).2 = 1 :=
  ⟨(capture_credited_to_captured_color capBoard 0 0 (by decide)).1 rfl, by decide⟩

/-- C9: for an occupied cell `(r, c)` holding `stone`, `get_group` returns
exactly the maximal 4-connected same-colour component containing `(r, c)`:
membership is equivalent to holding `stone` and being 4-connected to
`(r, c)` through `stone`-coloured cells. -/
theorem get_group_is_component {n : Nat} (b : GoBoard n) (r c : Fin n)
    (stone : Stone) (_hocc : stone ≠ Stone.Empty) (hcol : b.board r c = stone)
    (p : Fin n × Fin n) :
    p ∈ get_group b r c stone ↔
      b.board p.1 p.2 = stone ∧ Reaches b stone (r, c) p := by
  rw [mem_get_group]
  constructor
  · rintro ⟨_, hr⟩
    exact ⟨reaches_board (by simpa using hcol) hr, hr⟩
  · rintro ⟨_, hr⟩
    exact ⟨hcol, hr⟩

/-- Witness for C9 on the L-shaped configuration: membership of (1,1) in
the group of (0,0) is exactly colour plus connectivity. -/
theorem get_group_is_component_witness :
    ((1, 1) : Fin 3 × Fin 3) ∈ get_group ellBoard 0 0 Stone.Black ↔
      ellBoard.board 1 1 = Stone.Black ∧
        Reaches ellBoard Stone.Black (0, 0) (1, 1) :=
  get_group_is_component ellBoard 0 0 Stone.Black (by decide) (by decide) (1, 1)

/-- C1 evaluation at the failing input: the dead White group has 2 stones,
and the sweep removes exactly those 2 cells, yet `capture_stones` returns
4 — each member cell of the dead group re-counts the whole group, so the
returned count is the squared group size, not the number of stones
removed. -/
theorem capture_count_ne_removed :
    (capture_stones dblBoard Stone.White).2 = 4 ∧
    ((Finset.univ : Finset (Fin 3 × Fin 3)).filter
        (fun p => dblBoard.board p.1 p.2 ≠ Stone.Empty ∧
          (capture_stones dblBoard Stone.White).1.board p.1 p.2 = Stone.Empty)).card
      = 2 := by
  constructor
  · decide
  · decide

/-- C3: with the game not over, an Empty target cell with no Empty
neighbour, every adjacent friendly group's liberties all equal to the
target cell itself, and every adjacent opponent group keeping an Empty
neighbour other than the target cell (so nothing would be captured),
`make_move` returns false and leaves the state unchanged. -/
theorem suicide_move_rejected {n : Nat} (b : GoBoard n) (row col : Fin n)
    (hgo : b.game_over = false)
    (hempty : b.board row col = Stone.Empty)
    (hnoEmptyNbr : ∀ q ∈ get_neighbors row col, b.board q.1 q.2 ≠ Stone.Empty)
    (hfriend : ∀ q ∈ get_neighbors row col,
      b.board q.1 q.2 = b.current_player.to_stone →
      ∀ p ∈ get_group b q.1 q.2 b.current_player.to_stone,
        ∀ e ∈ get_neighbors p.1 p.2, b.board e.1 e.2 = Stone.Empty →
          e = (row, col))
    (hnocap : ∀ q ∈ get_neighbors row col,
      b.board q.1 q.2 = b.current_player.other.to_stone →
      ∃ p ∈ get_group b q.1 q.2 b.current_player.other.to_stone,
        ∃ e ∈ get_neighbors p.1 p.2,
          b.board e.1 e.2 = Stone.Empty ∧ e ≠ (row, col)) :
    make_move b row col = (false, b) := by
  apply make_move_of_invalid
  unfold is_valid_move
  rw [if_neg (by simp [hgo, hempty])]
  have hwc : would_capture_opponent b row col b.current_player = false := by
    unfold would_capture_opponent
    rw [List.any_eq_false]
    intro q hq
    by_cases hcol : b.board q.1 q.2 = b.current_player.other.to_stone
    · rcases hnocap q hq hcol with ⟨p, hp, e, he, hee, hene⟩
      have hdec : would_group_be_captured b q.1 q.2
          b.current_player.other.to_stone row col = false := by
        unfold would_group_be_captured
        rw [decide_eq_true
          ⟨p, hp, e, he, hee, fun hand => hene (Prod.ext_iff.mpr ⟨hand.1, hand.2⟩)⟩]
        rfl
      simp [hdec]
    · intro hand
      rw [Bool.and_eq_true] at hand
      exact hcol (of_decide_eq_true hand.1)
  have hws : would_be_suicide b row col b.current_player = true := by
    unfold would_be_suicide
    rw [if_neg, if_neg]
    · -- no adjacent friendly group would keep liberties
      simp only [List.any_eq_true, not_exists]
      rintro q hex
      rcases hex with ⟨hq, hand⟩
      rw [Bool.and_eq_true] at hand
      have hcol : b.board q.1 q.2 = b.current_player.to_stone :=
        of_decide_eq_true hand.1
      have hfl := hand.2
      unfold would_friendly_group_have_liberties at hfl
      rw [Bool.or_eq_true] at hfl
      rcases hfl with hfl | hfl
      · rcases of_decide_eq_true hfl with ⟨p, hp, e, he, hee, hne⟩
        have := hfriend q hq hcol p hp e he hee
        rw [Prod.ext_iff] at this
        exact hne ⟨this.1, this.2⟩
      · rw [List.any_eq_true] at hfl
        rcases hfl with ⟨e, he, hee⟩
        exact hnoEmptyNbr e he (of_decide_eq_true hee)
    · simp only [List.any_eq_true, not_exists]
      rintro q ⟨hq, hee⟩
      exact hnoEmptyNbr q hq (of_decide_eq_true hee)
  rw [if_pos ⟨hwc, hws⟩]

/-- Witness for C3: the suicide move at (0,0) on `suiBoard` is rejected
with the state unchanged. -/
theorem suicide_move_rejected_witness :
    make_move suiBoard 0 0 = (false, suiBoard) :=
  suicide_move_rejected suiBoard 0 0 (by decide) (by decide) (by decide)
    (by decide) (by decide)

/-- C4: with the game not over and the target Empty, if some adjacent
opponent group has every Empty-adjacent cell equal to the target (the
target is its only liberty), the move is valid and `make_move` succeeds;
no suicide condition is consulted. -/
theorem capturing_move_is_legal {n : Nat} (b : GoBoard n) (row col : Fin n)
    (hgo : b.game_over = false)
    (hempty : b.board row col = Stone.Empty)
    (hcap : ∃ q ∈ get_neighbors row col,
      b.board q.1 q.2 = b.current_player.other.to_stone ∧
      ∀ p ∈ get_group b q.1 q.2 b.current_player.other.to_stone,
        ∀ e ∈ get_neighbors p.1 p.2, b.board e.1 e.2 = Stone.Empty →
          e = (row, col)) :
    is_valid_move b row col = true ∧ (make_move b row col).1 = true := by
  have hwc : would_capture_opponent b row col b.current_player = true := by
    unfold would_capture_opponent
    rw [List.any_eq_true]
    rcases hcap with ⟨q, hq, hcol, honly⟩
    refine ⟨q, hq, ?_⟩
    rw [Bool.and_eq_true]
    refine ⟨decide_eq_true hcol, ?_⟩
    unfold would_group_be_captured
    simp only [Bool.not_eq_true']
    refine decide_eq_false ?_
    rintro ⟨p, hp, e, he, hee, hne⟩
    have := honly p hp e he hee
    rw [Prod.ext_iff] at this
    exact hne ⟨this.1, this.2⟩
  have hv : is_valid_move b row col = true := by
    unfold is_valid_move
    rw [if_neg (by simp [hgo, hempty]), if_neg (by simp [hwc])]
  refine ⟨hv, ?_⟩
  unfold make_move
  rw [if_neg (by simp [hv])]

/-- Witness for C4: the capturing move at (0,0) on `capBoard2` is valid
and succeeds although the placed stone itself has no direct liberty. -/
theorem capturing_move_is_legal_witness :
    is_valid_move capBoard2 0 0 = true ∧ (make_move capBoard2 0 0).1 = true :=
  capturing_move_is_legal capBoard2 0 0 (by decide) (by decide) (by decide)

theorem make_move_accepted_valid {n : Nat} {b : GoBoard n} {row col : Fin n}
    (hacc : (make_move b row col).1 = true) :
    is_valid_move b row col = true := by
  cases h : is_valid_move b row col
  · rw [make_move_of_invalid b row col h] at hacc
    exact absurd hacc (by simp)
  · rfl

theorem is_valid_dest {n : Nat} {b : GoBoard n} {row col : Fin n}
    (hv : is_valid_move b row col = true) :
    b.game_over = false ∧ b.board row col = Stone.Empty ∧
      (would_capture_opponent b row col b.current_player = true ∨
       would_be_suicide b row col b.current_player = false) := by
  unfold is_valid_move at hv
  by_cases h1 : b.game_over = true ∨ b.board row col ≠ Stone.Empty
  · rw [if_pos h1] at hv
    exact absurd hv (by simp)
  · push_neg at h1
    rw [if_neg (by push_neg; exact ⟨h1.1, h1.2⟩)] at hv
    refine ⟨by simpa using h1.1, h1.2, ?_⟩
    by_cases h2 : would_capture_opponent b row col b.current_player = false ∧
        would_be_suicide b row col b.current_player = true
    · rw [if_pos h2] at hv
      exact absurd hv (by simp)
    · by_cases hwc : would_capture_opponent b row col b.current_player = true
      · exact Or.inl hwc
      · refine Or.inr ?_
        have hwcf : would_capture_opponent b row col b.current_player = false := by
          cases h : would_capture_opponent b row col b.current_player
          · rfl
          · exact absurd h hwc
        cases h : would_be_suicide b row col b.current_player
        · rfl
        · exact absurd ⟨hwcf, h⟩ h2

theorem make_move_board {n : Nat} (b : GoBoard n) (row col : Fin n)
    (hv : is_valid_move b row col = true) :
    (make_move b row col).2.board =
      (capture_stones (placeStone b row col)
        b.current_player.other.to_stone).1.board := by
  unfold make_move
  rw [if_neg (by simp [hv])]
  cases hcp : b.current_player <;> rfl

theorem placeStone_board_self {n : Nat} (b : GoBoard n) (row col : Fin n) :
    (placeStone b row col).board row col = b.current_player.to_stone := by
  show (if row = row ∧ col = col then _ else _) = _
  rw [if_pos ⟨rfl, rfl⟩]

theorem placeStone_board_ne {n : Nat} (b : GoBoard n) (row col : Fin n)
    {p : Fin n × Fin n} (h : p ≠ (row, col)) :
    (placeStone b row col).board p.1 p.2 = b.board p.1 p.2 := by
  show (if p.1 = row ∧ p.2 = col then _ else _) = _
  rw [if_neg (fun hand => h (Prod.ext_iff.mpr hand))]

theorem stone_cases_of_ne_empty (s : Stone) (P : Player) (h : s ≠ Stone.Empty) :
    s = P.to_stone ∨ s = P.other.to_stone := by
  cases s <;> cases P <;> revert h <;> decide

theorem get_group_congr_color {n : Nat} {b1 b2 : GoBoard n} {stone : Stone}
    (h : ∀ p : Fin n × Fin n, b1.board p.1 p.2 = stone ↔ b2.board p.1 p.2 = stone)
    (r c : Fin n) : get_group b1 r c stone = get_group b2 r c stone := by
  ext p
  rw [mem_get_group, mem_get_group]
  constructor
  · rintro ⟨hs, hr⟩
    exact ⟨(h (r, c)).mp hs, reaches_mono_color hr (fun q hq => (h q).mp hq)⟩
  · rintro ⟨hs, hr⟩
    exact ⟨(h (r, c)).mpr hs, reaches_mono_color hr (fun q hq => (h q).mpr hq)⟩

theorem capture_stones_preserves_color {n : Nat} (b1 : GoBoard n)
    (opp s : Stone) (hs : s ≠ opp) (hsE : s ≠ Stone.Empty) (qr qc : Fin n) :
    (capture_stones b1 opp).1.board qr qc = s ↔ b1.board qr qc = s := by
  rw [capture_stones_board]
  by_cases hd : deadCell b1 opp (qr, qc)
  · rw [if_pos hd]
    constructor
    · intro h
      exact absurd h.symm hsE
    · intro h
      have hopp := hd.1
      rw [h] at hopp
      exact absurd hopp hs
  · rw [if_neg hd]

theorem capture_stones_empty_mono {n : Nat} (b1 : GoBoard n) (opp : Stone)
    (qr qc : Fin n) (h : b1.board qr qc = Stone.Empty) :
    (capture_stones b1 opp).1.board qr qc = Stone.Empty := by
  rw [capture_stones_board]
  by_cases hd : deadCell b1 opp (qr, qc)
  · rw [if_pos hd]
  · rw [if_neg hd]
    exact h

theorem capture_stones_not_dead {n : Nat} (b1 : GoBoard n) (opp : Stone)
    (qr qc : Fin n) (h : ¬ deadCell b1 opp (qr, qc)) :
    (capture_stones b1 opp).1.board qr qc = b1.board qr qc := by
  rw [capture_stones_board, if_neg h]

theorem placeStone_board_cell {n : Nat} (b : GoBoard n) (row col pr pc : Fin n)
    (h : ¬ (pr = row ∧ pc = col)) :
    (placeStone b row col).board pr pc = b.board pr pc := by
  show (if pr = row ∧ pc = col then _ else _) = _
  rw [if_neg h]

theorem reaches_congr_board {n : Nat} {bA bB : GoBoard n}
    (h : bA.board = bB.board) {stone : Stone} {a p : Fin n × Fin n}
    (hr : Reaches bA stone a p) : Reaches bB stone a p := by
  induction hr with
  | refl => exact Relation.ReflTransGen.refl
  | tail _ hstep ih =>
    refine Relation.ReflTransGen.tail ih ⟨hstep.1, ?_⟩
    rw [← h]
    exact hstep.2

theorem groupHasLiberty_congr_board {n : Nat} {bA bB : GoBoard n}
    (h : bA.board = bB.board) (r c : Fin n) (hg : groupHasLiberty bA r c) :
    groupHasLiberty bB r c := by
  obtain ⟨p, hrp, q, hq, hqE⟩ := hg
  refine ⟨p, ?_, q, hq, ?_⟩
  · have hr2 := reaches_congr_board h hrp
    rw [h] at hr2
    exact hr2
  · rw [← h]
    exact hqE

/-- A non-dead opponent-coloured cell keeps its whole group and one of its
liberties across the capture sweep. -/
theorem surviving_opponent_has_liberty {n : Nat} (b1 : GoBoard n) (opp : Stone)
    (r c : Fin n) (hoppE : opp ≠ Stone.Empty)
    (hd : ¬ deadCell b1 opp (r, c)) (hcol : b1.board r c = opp) :
    groupHasLiberty (capture_stones b1 opp).1 r c := by
  have hbne : b1.board r c ≠ Stone.Empty := by rw [hcol]; exact hoppE
  have haslib : has_liberties b1 r c = true := by
    cases hl : has_liberties b1 r c
    · exact absurd ⟨hcol, hl⟩ hd
    · rfl
  rw [has_liberties_of_ne b1 r c hbne, hcol] at haslib
  obtain ⟨p, hp, q, hq, hqE⟩ := of_decide_eq_true haslib
  have hreach : Reaches b1 opp (r, c) p := ((mem_get_group b1 r c opp p).mp hp).2
  have hpres : ∀ x, Reaches b1 opp (r, c) x →
      (capture_stones b1 opp).1.board x.1 x.2 = b1.board x.1 x.2 := by
    intro x hx
    have hxg : x ∈ get_group b1 r c opp := (mem_get_group b1 r c opp x).mpr ⟨hcol, hx⟩
    have hxnd : ¬ deadCell b1 opp (x.1, x.2) := by
      intro hxd
      apply hd
      have hgeq := get_group_eq_of_mem hxg
      have hrcmem : (r, c) ∈ get_group b1 x.1 x.2 opp := by
        rw [hgeq]
        exact start_mem_get_group b1 r c opp hcol
      exact deadCell_of_mem_group hxd hrcmem
    exact capture_stones_not_dead b1 opp x.1 x.2 hxnd
  have chain2 : Reaches (capture_stones b1 opp).1 opp (r, c) p :=
    reaches_transfer hreach hpres
  have hb2col : (capture_stones b1 opp).1.board r c = opp := by
    have h0 := hpres (r, c) (reaches_refl b1 opp (r, c))
    exact h0.trans hcol
  refine ⟨p, ?_, q, hq, ?_⟩
  · rw [hb2col]
    exact chain2
  · exact capture_stones_empty_mono b1 opp q.1 q.2 hqE

/-- Core preservation argument: an accepted placement followed by the
capture sweep leaves every group on the board with a liberty. -/
theorem liberties_after_capture {n : Nat} (b : GoBoard n) (row col : Fin n)
    (hinv : allGroupsHaveLiberties b)
    (hempty : b.board row col = Stone.Empty)
    (hcapor : would_capture_opponent b row col b.current_player = true ∨
              would_be_suicide b row col b.current_player = false) :
    allGroupsHaveLiberties
      (capture_stones (placeStone b row col)
        b.current_player.other.to_stone).1 := by
  have hmyE := Player.to_stone_ne_empty b.current_player
  have hoppE := Player.to_stone_ne_empty b.current_player.other
  have hmyopp := Player.to_stone_ne_other b.current_player
  -- opponent colour is unchanged by the placement
  have hopp_iff : ∀ pr pc : Fin n,
      b.board pr pc = b.current_player.other.to_stone ↔
      (placeStone b row col).board pr pc = b.current_player.other.to_stone := by
    intro pr pc
    by_cases hp : pr = row ∧ pc = col
    · obtain ⟨h1, h2⟩ := hp
      subst h1
      subst h2
      constructor
      · intro h
        rw [hempty] at h
        exact absurd h.symm hoppE
      · intro h
        rw [placeStone_board_self] at h
        exact absurd h hmyopp
    · rw [placeStone_board_cell b row col pr pc hp]
  -- player colour is only gained by the placement
  have hmy_mono : ∀ pr pc : Fin n,
      b.board pr pc = b.current_player.to_stone →
      (placeStone b row col).board pr pc = b.current_player.to_stone := by
    intro pr pc h
    by_cases hp : pr = row ∧ pc = col
    · obtain ⟨h1, h2⟩ := hp
      subst h1
      subst h2
      rw [hempty] at h
      exact absurd h.symm hmyE
    · rw [placeStone_board_cell b row col pr pc hp]
      exact h
  -- player colour passes through the capture sweep unchanged
  have hmy_pres2 : ∀ x : Fin n × Fin n,
      (placeStone b row col).board x.1 x.2 = b.current_player.to_stone →
      (capture_stones (placeStone b row col)
        b.current_player.other.to_stone).1.board x.1 x.2
        = b.current_player.to_stone :=
    fun x hx =>
      (capture_stones_preserves_color _ _ _ hmyopp hmyE x.1 x.2).mpr hx
  intro r c hocc
  have hnotdead : ¬ deadCell (placeStone b row col)
      b.current_player.other.to_stone (r, c) := by
    intro hd
    apply hocc
    rw [capture_stones_board, if_pos hd]
  have hb12 := capture_stones_not_dead (placeStone b row col)
    b.current_player.other.to_stone r c hnotdead
  have hocc1 : (placeStone b row col).board r c ≠ Stone.Empty := by
    rw [← hb12]
    exact hocc
  rcases stone_cases_of_ne_empty ((placeStone b row col).board r c)
      b.current_player hocc1 with hmycase | hoppcase
  · -- the surviving cell holds the mover's colour
    have hb2rc : (capture_stones (placeStone b row col)
        b.current_player.other.to_stone).1.board r c
        = b.current_player.to_stone := hmy_pres2 (r, c) hmycase
    by_cases hR : Reaches (placeStone b row col) b.current_player.to_stone
        (r, c) (row, col)
    · -- its group contains the freshly placed stone
      rcases hcapor with hwc | hws
      · -- a capturing move: the captured neighbour opens a liberty
        unfold would_capture_opponent at hwc
        rw [List.any_eq_true] at hwc
        obtain ⟨q0, hq0mem, hand⟩ := hwc
        rw [Bool.and_eq_true] at hand
        have hq0opp : b.board q0.1 q0.2 = b.current_player.other.to_stone :=
          of_decide_eq_true hand.1
        have hwgbc := hand.2
        have hq0b1 : (placeStone b row col).board q0.1 q0.2
            = b.current_player.other.to_stone := (hopp_iff q0.1 q0.2).mp hq0opp
        have hq0dead : deadCell (placeStone b row col)
            b.current_player.other.to_stone (q0.1, q0.2) := by
          refine ⟨hq0b1, ?_⟩
          cases hl : has_liberties (placeStone b row col) q0.1 q0.2
          · rfl
          · exfalso
            rw [has_liberties_of_ne (placeStone b row col) q0.1 q0.2
              (by rw [hq0b1]; exact hoppE), hq0b1] at hl
            obtain ⟨p, hp, e, he, heE⟩ := of_decide_eq_true hl
            have hgg : get_group (placeStone b row col) q0.1 q0.2
                b.current_player.other.to_stone
                = get_group b q0.1 q0.2 b.current_player.other.to_stone :=
              get_group_congr_color (fun x => (hopp_iff x.1 x.2).symm) q0.1 q0.2
            rw [hgg] at hp
            have heNe : ¬ (e.1 = row ∧ e.2 = col) := by
              rintro ⟨h1, h2⟩
              rw [h1, h2, placeStone_board_self] at heE
              exact hmyE heE
            have heEb : b.board e.1 e.2 = Stone.Empty := by
              rw [← placeStone_board_cell b row col e.1 e.2 heNe]
              exact heE
            unfold would_group_be_captured at hwgbc
            have hdecf : decide (∃ p ∈ get_group b q0.1 q0.2
                b.current_player.other.to_stone,
                ∃ q ∈ get_neighbors p.1 p.2,
                  b.board q.1 q.2 = Stone.Empty ∧
                    ¬(q.1 = row ∧ q.2 = col)) = false := by
              cases hdec : decide (∃ p ∈ get_group b q0.1 q0.2
                  b.current_player.other.to_stone,
                  ∃ q ∈ get_neighbors p.1 p.2,
                    b.board q.1 q.2 = Stone.Empty ∧
                      ¬(q.1 = row ∧ q.2 = col))
              · rfl
              · rw [hdec] at hwgbc
                exact absurd hwgbc (by decide)
            exact of_decide_eq_false hdecf ⟨p, hp, e, he, heEb, heNe⟩
        have hq0E : (capture_stones (placeStone b row col)
            b.current_player.other.to_stone).1.board q0.1 q0.2
            = Stone.Empty := by
          rw [capture_stones_board, if_pos hq0dead]
        have hchain := reaches_mono_color hR
          (fun x hx => hmy_pres2 x hx)
        refine ⟨(row, col), ?_, q0, hq0mem, hq0E⟩
        rw [hb2rc]
        exact hchain
      · -- no capture, so the suicide test must have passed
        unfold would_be_suicide at hws
        by_cases hE : ((get_neighbors row col).any
            (fun q => decide (b.board q.1 q.2 = Stone.Empty))) = true
        · -- the new stone has a direct Empty neighbour
          rw [List.any_eq_true] at hE
          obtain ⟨e, hemem, heEdec⟩ := hE
          have heEb : b.board e.1 e.2 = Stone.Empty := of_decide_eq_true heEdec
          have heNe : ¬ (e.1 = row ∧ e.2 = col) := by
            rintro ⟨h1, h2⟩
            have hadj := (mem_get_neighbors row col e).mp hemem
            rw [show e = (row, col) from Prod.ext_iff.mpr ⟨h1, h2⟩] at hadj
            exact adj4_irrefl _ hadj
          have heE1 : (placeStone b row col).board e.1 e.2 = Stone.Empty := by
            rw [placeStone_board_cell b row col e.1 e.2 heNe]
            exact heEb
          have heE2 := capture_stones_empty_mono (placeStone b row col)
            b.current_player.other.to_stone e.1 e.2 heE1
          have hchain := reaches_mono_color hR (fun x hx => hmy_pres2 x hx)
          refine ⟨(row, col), ?_, e, hemem, heE2⟩
          rw [hb2rc]
          exact hchain
        · -- a friendly neighbour group keeps a liberty elsewhere
          rw [if_neg hE] at hws
          by_cases hF : ((get_neighbors row col).any (fun q =>
              decide (b.board q.1 q.2 = b.current_player.to_stone) &&
                would_friendly_group_have_liberties b q.1 q.2
                  b.current_player.to_stone row col)) = true
          · rw [List.any_eq_true] at hF
            obtain ⟨q0, hq0mem, hand⟩ := hF
            rw [Bool.and_eq_true] at hand
            have hq0my : b.board q0.1 q0.2 = b.current_player.to_stone :=
              of_decide_eq_true hand.1
            have hfl := hand.2
            unfold would_friendly_group_have_liberties at hfl
            rw [Bool.or_eq_true] at hfl
            rcases hfl with hfl | hfl
            · obtain ⟨p, hp, e, he, heE, hne⟩ := of_decide_eq_true hfl
              have hq0ne : ¬ (q0.1 = row ∧ q0.2 = col) := by
                rintro ⟨h1, h2⟩
                rw [h1, h2, hempty] at hq0my
                exact hmyE hq0my.symm
              have hq0b1 : (placeStone b row col).board q0.1 q0.2
                  = b.current_player.to_stone := by
                rw [placeStone_board_cell b row col q0.1 q0.2 hq0ne]
                exact hq0my
              have hstep : Reaches (placeStone b row col)
                  b.current_player.to_stone (r, c) q0 :=
                Relation.ReflTransGen.tail hR
                  ⟨by simpa using (mem_get_neighbors row col q0).mp hq0mem, hq0b1⟩
              have hq0p : Reaches b b.current_player.to_stone q0 p :=
                ((mem_get_group b q0.1 q0.2 b.current_player.to_stone p).mp hp).2
              have hq0p1 : Reaches (placeStone b row col)
                  b.current_player.to_stone q0 p :=
                reaches_mono_color hq0p (fun x hx => hmy_mono x.1 x.2 hx)
              have hRp : Reaches (placeStone b row col)
                  b.current_player.to_stone (r, c) p :=
                reaches_trans hstep hq0p1
              have hchain := reaches_mono_color hRp (fun x hx => hmy_pres2 x hx)
              have heE1 : (placeStone b row col).board e.1 e.2 = Stone.Empty := by
                rw [placeStone_board_cell b row col e.1 e.2 hne]
                exact heE
              have heE2 := capture_stones_empty_mono (placeStone b row col)
                b.current_player.other.to_stone e.1 e.2 heE1
              refine ⟨p, ?_, e, he, heE2⟩
              rw [hb2rc]
              exact hchain
            · exact absurd hfl hE
          · rw [if_neg hF] at hws
            exact absurd hws (by simp)
    · -- its group does not contain the new stone: the old liberty survives
      have hrcne : ¬ (r = row ∧ c = col) := by
        rintro ⟨h1, h2⟩
        subst h1
        subst h2
        exact hR (reaches_refl _ _ _)
      have hbrc : b.board r c = b.current_player.to_stone := by
        rw [← placeStone_board_cell b row col r c hrcne]
        exact hmycase
      obtain ⟨p, hrp, q, hq, hqE⟩ := hinv r c (by rw [hbrc]; exact hmyE)
      rw [hbrc] at hrp
      have hRp1 : Reaches (placeStone b row col) b.current_player.to_stone
          (r, c) p :=
        reaches_mono_color hrp (fun x hx => hmy_mono x.1 x.2 hx)
      have hqNe : ¬ (q.1 = row ∧ q.2 = col) := by
        rintro ⟨h1, h2⟩
        apply hR
        refine Relation.ReflTransGen.tail hRp1 ⟨?_, ?_⟩
        · have hadj := (mem_get_neighbors p.1 p.2 q).mp hq
          rw [show q = (row, col) from Prod.ext_iff.mpr ⟨h1, h2⟩] at hadj
          simpa using hadj
        · exact placeStone_board_self b row col
      have hqE1 : (placeStone b row col).board q.1 q.2 = Stone.Empty := by
        rw [placeStone_board_cell b row col q.1 q.2 hqNe]
        exact hqE
      have hqE2 := capture_stones_empty_mono (placeStone b row col)
        b.current_player.other.to_stone q.1 q.2 hqE1
      have hchain := reaches_mono_color hRp1 (fun x hx => hmy_pres2 x hx)
      refine ⟨p, ?_, q, hq, hqE2⟩
      rw [hb2rc]
      exact hchain
  · -- the surviving cell holds the opponent's colour
    exact surviving_opponent_has_liberty (placeStone b row col)
      b.current_player.other.to_stone r c hoppE hnotdead hoppcase

theorem make_move_preserves_liberties {n : Nat} (b : GoBoard n) (row col : Fin n)
    (hinv : allGroupsHaveLiberties b) (hacc : (make_move b row col).1 = true) :
    allGroupsHaveLiberties (make_move b row col).2 := by
  have hv := make_move_accepted_valid hacc
  obtain ⟨hgo, hempty, hcapor⟩ := is_valid_dest hv
  have hboard := make_move_board b row col hv
  intro r c hocc
  have hocc2 : (capture_stones (placeStone b row col)
      b.current_player.other.to_stone).1.board r c ≠ Stone.Empty := by
    rw [← hboard]
    exact hocc
  exact groupHasLiberty_congr_board hboard.symm r c
    (liberties_after_capture b row col hinv hempty hcapor r c hocc2)

/-- C2: in every state reachable from the initial all-Empty board by
accepted `make_move` calls and `pass_turn` calls, every maximal
4-connected group of like-coloured stones has at least one liberty. -/
theorem reachable_groups_have_liberties {n : Nat} (b : GoBoard n)
    (hb : ReachableState b) : allGroupsHaveLiberties b := by
  induction hb with
  | init =>
    intro r c h
    exact absurd rfl h
  | move b row col hb hacc ih =>
    exact make_move_preserves_liberties b row col ih hacc
  | pass b hb ih =>
    intro r c h
    exact groupHasLiberty_congr_board rfl r c (ih r c h)

/-- Witness for C2: the state after Black's accepted first move on an
empty 2×2 board satisfies the liberty invariant. -/
theorem reachable_groups_have_liberties_witness :
    allGroupsHaveLiberties (make_move (GoBoard.with_size 2) 0 0).2 :=
  reachable_groups_have_liberties _
    (ReachableState.move (GoBoard.with_size 2) 0 0 ReachableState.init (by decide))
